import Mathlib

/-!
Shallow embedding of `makemock.py` (elmotec/makemock), a regex-based mock
generator for C++ headers, together with theorems settling the specification
claims about it.

The Python code's behaviour is driven by `re` patterns with Python's
leftmost/greedy backtracking semantics.  We embed that faithfully: a small
regex AST (`RE`), an executable backtracking matcher `mrun` returning all
results in Python's priority order (so `List.head?` is exactly the match
`re.match` produces), and the two concrete patterns of the source transcribed
node for node.  All string work is done on `List Char` (ASCII inputs).
-/

namespace Makemock

/-- Python `\s` (ASCII range). -/
def isWs (c : Char) : Bool :=
  c == ' ' || c == '\t' || c == '\n' || c == '\r' || c == '\x0b' || c == '\x0c'

/-- Python `\w` (ASCII range). -/
def isWordChar (c : Char) : Bool :=
  c.isAlphanum || c == '_'

/-- The character class `[\w:<>,\s&*]` of `method_decl_re`'s `ret_type` group. -/
def isRetTypeChar (c : Char) : Bool :=
  isWordChar c || c == ':' || c == '<' || c == '>' || c == ',' || isWs c || c == '&' || c == '*'

/-- The class `[:\w]` used by the delegation argument pattern. -/
def isColonWordChar (c : Char) : Bool :=
  c == ':' || isWordChar c

/-- Regex AST: exactly the constructs used by the two patterns in the source.
`alt` prefers its left branch, `star` is greedy, `group` records a capture,
`eos` is Python's `$` (end of subject, or just before a final newline). -/
inductive RE where
  | eps
  | chr (p : Char → Bool)
  | lit (w : List Char)
  | seq (a b : RE)
  | alt (a b : RE)
  | star (a : RE)
  | group (i : Nat) (a : RE)
  | eos

/-- Greedy `?`. -/
def REopt (a : RE) : RE := .alt a .eps

/-- Greedy `+`. -/
def REplus (a : RE) : RE := .seq a (.star a)

/-- Captures: group index paired with the captured characters.  More recent
captures are consed on the front, so `List.lookup` finds the winning one. -/
abbrev Caps := List (Nat × List Char)

/-- Ample fuel: the matcher's recursion depth is linear in the input. -/
def matchFuel (cs : List Char) : Nat := 100 * cs.length + 400

/-- Backtracking matcher in continuation-passing style.  `mfirst fuel re cs
caps k` explores the ways `re` can match a prefix of `cs` in Python's
backtracking priority order (left alternative first, greedy repetition
longest first), extending the capture list `caps`, and returns the first
result the continuation `k` accepts — exactly the match `re.match` commits
to.  A repetition body must consume input to iterate (Python's empty-match
rule).  The fuel only bounds recursion depth; every recursive call decrements
it, so the function is structurally recursive and reduces inside the
kernel. -/
def mfirst : Nat → RE → List Char → Caps →
    (Caps → List Char → Option (Caps × List Char)) → Option (Caps × List Char)
  | 0, _, _, _, _ => none
  | _ + 1, .eps, cs, caps, k => k caps cs
  | _ + 1, .chr p, cs, caps, k =>
    match cs with
    | [] => none
    | c :: rest => if p c then k caps rest else none
  | _ + 1, .lit w, cs, caps, k =>
    if w.isPrefixOf cs then k caps (cs.drop w.length) else none
  | n + 1, .seq a b, cs, caps, k =>
    mfirst n a cs caps fun caps2 rest => mfirst n b rest caps2 k
  | n + 1, .alt a b, cs, caps, k =>
    match mfirst n a cs caps k with
    | some r => some r
    | none => mfirst n b cs caps k
  | n + 1, .star a, cs, caps, k =>
    match mfirst n a cs caps
        (fun caps2 rest =>
          if rest.length < cs.length then mfirst n (.star a) rest caps2 k else none) with
    | some r => some r
    | none => k caps cs
  | n + 1, .group i a, cs, caps, k =>
    mfirst n a cs caps fun caps2 rest =>
      k ((i, cs.take (cs.length - rest.length)) :: caps2) rest
  | _ + 1, .eos, cs, caps, k =>
    if cs = [] || cs = ['\n'] then k caps cs else none

/-- Run a pattern the way `re.match` does: first match of a prefix, returning
the captures and the unconsumed rest of the subject. -/
def reMatch (re : RE) (cs : List Char) : Option (Caps × List Char) :=
  mfirst (matchFuel cs) re cs [] fun caps rest => some (caps, rest)

/-- The pattern of `MockMaker.method_decl_re`, transcribed node for node:
`^\s*(?P<virtual>virtual)?\s*(?P<ret_type>[\w:<>,\s&*]+)\s+(?P<name>\w+)(?P<params>\([^\)]*\))(?P<qualifiers>(?:\s*\w+)*)(\s*=.*)?`
Groups are numbered in order of appearance; `.` excludes newline. -/
def method_decl_re : RE :=
  .seq (.star (.chr isWs))
  (.seq (REopt (.group 1 (.lit "virtual".data)))
  (.seq (.star (.chr isWs))
  (.seq (.group 2 (REplus (.chr isRetTypeChar)))
  (.seq (REplus (.chr isWs))
  (.seq (.group 3 (REplus (.chr isWordChar)))
  (.seq (.group 4 (.seq (.chr (fun c => c == '(')) (.seq (.star (.chr (fun c => c != ')'))) (.chr (fun c => c == ')')))))
  (.seq (.group 5 (.star (.seq (.star (.chr isWs)) (REplus (.chr isWordChar)))))
        (REopt (.group 6 (.seq (.star (.chr isWs)) (.seq (.chr (fun c => c == '=')) (.star (.chr (fun c => c != '\n'))))))))))))))

/-- The per-argument pattern of `generate_default_delegation`:
`^\s*(?P<arg_type>(?:const\s+)?[:\w]+(?:\s*[\*\&])?)\s*(?P<arg_name>\w+)?\s*(= 0)?\s*$` -/
def arg_decl_re : RE :=
  .seq (.star (.chr isWs))
  (.seq (.group 1 (.seq (REopt (.seq (.lit "const".data) (REplus (.chr isWs))))
                  (.seq (REplus (.chr isColonWordChar))
                        (REopt (.seq (.star (.chr isWs)) (.chr (fun c => c == '*' || c == '&')))))))
  (.seq (.star (.chr isWs))
  (.seq (REopt (.group 2 (REplus (.chr isWordChar))))
  (.seq (.star (.chr isWs))
  (.seq (REopt (.group 3 (.lit "= 0".data)))
  (.seq (.star (.chr isWs)) .eos))))))

/-! ## String utilities mirroring the Python library calls used by the source -/

/-- `str.split(sepchar)` behaviour for a one-character separator (and
`re.split("[...]")` for a character class): split at every separator
occurrence, keeping empty pieces.  The result is always nonempty. -/
def splitOnP (p : Char → Bool) : List Char → List (List Char)
  | [] => [[]]
  | c :: rest =>
    if p c then [] :: splitOnP p rest
    else
      match splitOnP p rest with
      | [] => [[c]]
      | t :: ts => (c :: t) :: ts

/-- The statement separator class `[;{}]` of `re.split` in
`find_methods_to_mock`. -/
def isStmtDelim (c : Char) : Bool := c == ';' || c == '{' || c == '}'

/-- `"sep".join(pieces)`. -/
def joinWith (sep : List Char) : List (List Char) → List Char
  | [] => []
  | [x] => x
  | x :: xs => x ++ sep ++ joinWith sep xs

/-- `str.split()` with no argument: whitespace-run separated tokens, empties
dropped.  `acc` is the current token accumulated in reverse. -/
def pySplitWsGo (acc : List Char) : List Char → List (List Char)
  | [] => if acc.isEmpty then [] else [acc.reverse]
  | c :: rest =>
    if isWs c then
      if acc.isEmpty then pySplitWsGo [] rest
      else acc.reverse :: pySplitWsGo [] rest
    else pySplitWsGo (c :: acc) rest

def pySplitWs (cs : List Char) : List String :=
  (pySplitWsGo [] cs).map fun t => String.mk t

/-- `re.sub(r"\s+", " ", s)`: each maximal whitespace run becomes one space.
`inRun` records whether the previous character was whitespace. -/
def sub1go (inRun : Bool) : List Char → List Char
  | [] => []
  | c :: rest =>
    if isWs c then
      if inRun then sub1go true rest else ' ' :: sub1go true rest
    else c :: sub1go false rest

def collapseWs (cs : List Char) : List Char := sub1go false cs

/-- One attempt of the pattern `\s*=\s*\w+` anchored at the current position:
greedy whitespace, `=`, greedy whitespace, then at least one word character.
Backtracking cannot rescue a failure (shrinking a `\s*` lands on a whitespace
character where `=` or `\w` is required), so the greedy attempt is exact.
Returns the rest of the input after the match. -/
def tryDefaultClause (cs : List Char) : Option (List Char) :=
  match cs.dropWhile isWs with
  | '=' :: r2 =>
    if ((r2.dropWhile isWs).takeWhile isWordChar).isEmpty then none
    else some ((r2.dropWhile isWs).dropWhile isWordChar)
  | _ => none

/-- `re.sub(r"\s*=\s*\w+", "", s)`: delete each leftmost nonoverlapping match.
Fuel is the input length; every step consumes at least one character. -/
def sub2go : Nat → List Char → List Char
  | 0, cs => cs
  | _ + 1, [] => []
  | n + 1, c :: rest =>
    match tryDefaultClause (c :: rest) with
    | some r4 => sub2go n r4
    | none => c :: sub2go n rest

def stripDefaults (cs : List Char) : List Char := sub2go cs.length cs

/-! ## The data model and classifier -/

/-- The `MockMethod` namedtuple. -/
structure MockMethod where
  ret_type : String
  name : String
  parameters : String
  qualifiers : String
deriving DecidableEq, Repr

/-- The groups of a successful `method_decl_re.match`.  `virt` is
`match.group("virtual")` (`none` when the optional group did not participate);
the other groups always participate on success. -/
structure MatchGroups where
  virt : Option String
  ret_type : String
  name : String
  params : String
  qualifiers : String
deriving DecidableEq, Repr

def capsToGroups (caps : Caps) : MatchGroups :=
  { virt := (caps.lookup 1).map fun v => String.mk v
    ret_type := String.mk ((caps.lookup 2).getD [])
    name := String.mk ((caps.lookup 3).getD [])
    params := String.mk ((caps.lookup 4).getD [])
    qualifiers := String.mk ((caps.lookup 5).getD []) }

/-- `method_decl_re.match(statement)` together with the unconsumed rest of the
statement (`re.match` accepts a prefix match and ignores the rest). -/
def methodDeclMatchFull (s : String) : Option (MatchGroups × String) :=
  (reMatch method_decl_re s.data).map fun r => (capsToGroups r.1, String.mk r.2)

/-- `if "override" not in quals: quals.append("override")` of
`parse_method`. -/
def appendOverride (quals : List String) : List String :=
  if "override" ∈ quals then quals else quals ++ ["override"]

/-- `MockMaker.parse_method`, line for line:
reject unless `override` present or `virtual` matched; append `override` if
absent; reject `final`; collapse whitespace in the parameter list and strip
`= <word>` default clauses; join qualifiers with `", "`. -/
def parse_method (g : MatchGroups) : Option MockMethod :=
  if "override" ∉ pySplitWs g.qualifiers.data ∧ g.virt = none then none
  else if "final" ∈ appendOverride (pySplitWs g.qualifiers.data) then none
  else
    some { ret_type := g.ret_type
           name := g.name
           parameters := String.mk (stripDefaults (collapseWs g.params.data))
           qualifiers := String.intercalate ", " (appendOverride (pySplitWs g.qualifiers.data)) }

/-- Matching and classification of one statement from the `re.split` loop of
`find_methods_to_mock`: parse only the groups; the unmatched tail of the
statement is ignored. -/
def classifyStatement (s : String) : Option MockMethod :=
  match methodDeclMatchFull s with
  | none => none
  | some (g, _) => parse_method g

/-! ## Scope selection (`target_class` handling in `find_methods_to_mock`) -/

/-- `BraceCounter.process`: net brace count of one fragment. -/
def braceDelta (l : List Char) : Int :=
  (l.count '{' : Int) - (l.count '}' : Int)

/-- Python `in` for strings: substring containment. -/
def strIn (needle : List Char) : List Char → Bool
  | [] => needle.isPrefixOf []
  | c :: t => needle.isPrefixOf (c :: t) || strIn needle t

/-- The line loop of `find_methods_to_mock`: `count` is the running brace
count (processed for every line before anything else), `level` the recorded
`class_brace_level`.  A line is skipped while `level` is unset and it contains
neither `"class"` nor the target name; otherwise it becomes the class-opening
line, records `count + (0 if it contains a brace else 1)` and is itself
skipped.  Once `level` is set, scanning breaks as soon as the updated count
drops below it, and otherwise collects the line. -/
def scopeGo (target : List Char) : Int → Option Int → List (List Char) → List (List Char)
  | _, _, [] => []
  | count, none, line :: rest =>
    let count2 := count + braceDelta line
    if ¬ strIn "class".data line ∧ ¬ strIn target line then
      scopeGo target count2 none rest
    else
      let offset : Int := if strIn ['{'] line then 0 else 1
      scopeGo target count2 (some (count2 + offset)) rest
  | count, some lv, line :: rest =>
    let count2 := count + braceDelta line
    if count2 < lv then []
    else line :: scopeGo target count2 (some lv) rest

/-- The scoping prologue of `find_methods_to_mock`: with no target class the
content passes through; otherwise the collected lines are rejoined. -/
def selectScope (target : Option String) (content : String) : String :=
  match target with
  | none => content
  | some t =>
    String.mk (joinWith ['\n'] (scopeGo t.data 0 none (splitOnP (fun c => c == '\n') content.data)))

/-- `MockMaker.find_methods_to_mock`: scope selection, split on `[;{}]`,
classify each statement, keep the successes in order. -/
def find_methods_to_mock (target : Option String) (content : String) : List MockMethod :=
  (splitOnP isStmtDelim (selectScope target content).data).filterMap
    fun st => classifyStatement (String.mk st)

/-- `generate_mock_method`. -/
def generate_mock_method (m : MockMethod) : String :=
  "MOCK_METHOD(" ++ m.ret_type ++ ", " ++ m.name ++ ", " ++ m.parameters ++ ", (" ++ m.qualifiers ++ "));"

/-- `MockMaker.make_mock`: the generated output text. -/
def make_mock (target : Option String) (content : String) : String :=
  String.intercalate "\n" ((find_methods_to_mock target content).map generate_mock_method)

/-! ## Default delegation (`generate_default_delegation`) -/

/-- `match.lastindex`: the last matched capturing group.  The delegation
pattern's groups are flat and sequential, so this is the largest recorded
group index. -/
def lastIndexOfCaps (caps : Caps) : Nat :=
  caps.foldl (fun acc iv => max acc iv.1) 0

/-- Per-argument processing of `generate_default_delegation`: `none` when the
argument does not match `arg_decl_re` (the loop `continue`s).  Otherwise
returns `(arg_type, arg_name)`, where `arg_name` mirrors the source exactly:
start from `f"p{index}"`, and overwrite it with `m.group("arg_name")` — which
may be Python `None` — whenever `m.lastindex >= 2`. -/
def delegationArg (index : Nat) (arg : List Char) : Option (List Char × Option (List Char)) :=
  match reMatch arg_decl_re arg with
  | none => none
  | some (caps, _) =>
    let argName : Option (List Char) :=
      if lastIndexOfCaps caps ≥ 2 then caps.lookup 2
      else some ("p".data ++ (toString index).data)
    some ((caps.lookup 1).getD [], argName)

/-- `generate_default_delegation`.  The parameter string has its parentheses
removed and is split on commas; each piece is processed positionally.  The
source appends `arg_name` (possibly Python `None`) to `arg_names` and then
evaluates `", ".join(arg_names)`, which raises `TypeError` whenever a `None`
slipped in — modelled by returning `none`. -/
def generate_default_delegation (m : MockMethod) : Option String :=
  let pieces := splitOnP (fun c => c == ',')
    ((m.parameters.data.filter (fun c => c != '(')).filter (fun c => c != ')'))
  let items := pieces.enum.filterMap fun iarg => delegationArg iarg.1 iarg.2
  let argNames := items.map fun it => it.2
  if argNames.any (fun o => o.isNone) then none
  else
    let names := joinWith ", ".data (argNames.map fun o => o.getD [])
    let typeAndNames := joinWith ", ".data
      (items.map fun it => it.1 ++ [' '] ++ (it.2.getD "None".data))
    let pholders := joinWith ", ".data (items.map fun _ => ['_'])
    some (String.mk ("ON_CALL(*this, ".data ++ m.name.data ++ "(".data ++ pholders
      ++ ")).WillByDefault(Invoke([](".data ++ typeAndNames
      ++ ") \x7b return real->".data ++ m.name.data ++ "(".data ++ names ++ "); \x7d));".data))

/-- Number of occurrences of `needle` as a substring of `hay` (counting
positions at which it starts). -/
def countOccur (needle : List Char) : List Char → Nat
  | [] => if needle.isEmpty then 1 else 0
  | c :: t => (if needle.isPrefixOf (c :: t) then 1 else 0) + countOccur needle t

/-- Declarative matching semantics for the regex AST, used to reason about
what the backtracking matcher can possibly return.  `Sem re pre rest` means:
`re` matches exactly the characters `pre`, with `rest` being the input that
follows (the context is needed only for `eos`). -/
inductive Sem : RE → List Char → List Char → Prop where
  | eps {rest} : Sem .eps [] rest
  | chr {p : Char → Bool} {c rest} : p c = true → Sem (.chr p) [c] rest
  | lit {w rest} : Sem (.lit w) w rest
  | seq {a b xs ys rest} : Sem a xs (ys ++ rest) → Sem b ys rest →
      Sem (.seq a b) (xs ++ ys) rest
  | altL {a b xs rest} : Sem a xs rest → Sem (.alt a b) xs rest
  | altR {a b xs rest} : Sem b xs rest → Sem (.alt a b) xs rest
  | starNil {a rest} : Sem (.star a) [] rest
  | starCons {a xs ys rest} : Sem a xs (ys ++ rest) → Sem (.star a) ys rest →
      Sem (.star a) (xs ++ ys) rest
  | group {i a xs rest} : Sem a xs rest → Sem (.group i a) xs rest
  | eos {rest} : rest = [] ∨ rest = ['\n'] → Sem .eos [] rest

/-- The characters of a `MOCK_METHOD` output line strictly between
`MOCK_METHOD(` and the closing `;`. -/
def mockMid (m : MockMethod) : List Char :=
  m.ret_type.data ++ ", ".data ++ m.name.data ++ ", ".data ++ m.parameters.data
    ++ ", (".data ++ m.qualifiers.data ++ [')', ')']

/-- The statement pieces obtained by re-splitting a sequence of
semicolon-terminated, newline-joined line bodies. -/
def piecesOf : List (List Char) → List (List Char)
  | [] => [[]]
  | b0 :: rest => b0 :: (rest.map (fun b => '\n' :: b) ++ [[]])

/-! ## Claims -/

/-- **C1, counterexample.**  On the spec's concrete scenario — input
`void A();\nclass T { void B() override; };` with target class `T` — the code
does **not** output `MOCK_METHOD(void, B, (), (override));`: the class-opening
line records the brace level and is itself skipped (`continue`), so the class
body that sits on that same line is never collected and the scoped content is
empty. -/
theorem claim_C1_counterexample :
    make_mock (some "T") "void A();\nclass T { void B() override; };" ≠
      "MOCK_METHOD(void, B, (), (override));" := by
  decide

/-- **C1, amended.**  For that input and target the end-to-end transform
outputs the empty string (the opening line's own declarations are discarded),
and `A` never appears in the output. -/
theorem claim_C1_amended :
    make_mock (some "T") "void A();\nclass T { void B() override; };" = "" ∧
    strIn "A".data (make_mock (some "T") "void A();\nclass T { void B() override; };").data = false := by
  decide

/-- **C2.**  Contrary to the claim (and to the spec, which requires both
substrings), a line containing only the substring `class` — and not the
target name — does start scope collection: the guard
`if 'class' not in line and self.target_class not in line: continue` skips a
line only when *neither* substring occurs.  Here `class Other` contains
`class` but not `T`, yet the method inside that class is collected and
mocked. -/
theorem claim_C2_code_eval :
    strIn "class".data "class Other".data = true ∧
    strIn "T".data "class Other".data = false ∧
    make_mock (some "T") "class Other\n\x7b\nvoid f() override;\n\x7d\n" =
      "MOCK_METHOD(void, f, (), (override));" := by
  decide

/-- **C3, counterexample.**  A source declaration already carrying `override`
twice is accepted and its qualifier string contains `override` twice, not
exactly once. -/
theorem claim_C3_counterexample :
    classifyStatement "void f() override override" =
      some { ret_type := "void", name := "f", parameters := "()",
             qualifiers := "override, override" } ∧
    countOccur "override".data "override, override".data ≠ 1 := by
  decide

/-- **C3, amended.**  For every accepted declaration whose source qualifier
run carries `override` at most once, the emitted qualifiers field is the
qualifier tokens joined with `", "` in source order — unchanged when
`override` was already present, with `override` appended at the end
otherwise — and it contains `override` exactly once. -/
theorem claim_C3_amended (g : MatchGroups) (mm : MockMethod)
    (h : parse_method g = some mm)
    (hc : (pySplitWs g.qualifiers.data).count "override" ≤ 1) :
    ∃ qs2, mm.qualifiers = String.intercalate ", " qs2 ∧ qs2.count "override" = 1 ∧
      (("override" ∈ pySplitWs g.qualifiers.data ∧ qs2 = pySplitWs g.qualifiers.data) ∨
       ("override" ∉ pySplitWs g.qualifiers.data ∧
         qs2 = pySplitWs g.qualifiers.data ++ ["override"])) := by
  unfold parse_method at h
  split at h
  · exact absurd h (by simp)
  · split at h
    · exact absurd h (by simp)
    · injection h with h
      by_cases hov : "override" ∈ pySplitWs g.qualifiers.data
      · refine ⟨pySplitWs g.qualifiers.data, ?_, ?_, Or.inl ⟨hov, rfl⟩⟩
        · rw [← h]
          simp [appendOverride, hov]
        · have h1 : 0 < (pySplitWs g.qualifiers.data).count "override" :=
            List.count_pos_iff.mpr hov
          omega
      · refine ⟨pySplitWs g.qualifiers.data ++ ["override"], ?_, ?_, Or.inr ⟨hov, rfl⟩⟩
        · rw [← h]
          simp [appendOverride, hov]
        · have h0 : (pySplitWs g.qualifiers.data).count "override" = 0 :=
            List.count_eq_zero.mpr hov
          simp [List.count_append, h0]

/-- **C3, amended, witness** at the const-override declaration
`foo get_foo() const override`. -/
theorem claim_C3_amended_witness :
    ∃ qs2, ("const, override" : String) = String.intercalate ", " qs2 ∧
      qs2.count "override" = 1 ∧
      (("override" ∈ pySplitWs (" const override" : String).data ∧
         qs2 = pySplitWs (" const override" : String).data) ∨
       ("override" ∉ pySplitWs (" const override" : String).data ∧
         qs2 = pySplitWs (" const override" : String).data ++ ["override"])) :=
  claim_C3_amended
    { virt := none, ret_type := "foo", name := "get_foo", params := "()",
      qualifiers := " const override" }
    { ret_type := "foo", name := "get_foo", parameters := "()",
      qualifiers := "const, override" }
    (by decide) (by decide)

/-- **C4.**  A statement that matches the declarator grammar but was neither
declared `virtual` nor carries `override` among its trailing qualifiers is
rejected: the classifier produces no signature for it. -/
theorem claim_C4 (s : String) (g : MatchGroups) (rest : String)
    (h : methodDeclMatchFull s = some (g, rest))
    (hv : g.virt = none)
    (ho : "override" ∉ pySplitWs g.qualifiers.data) :
    classifyStatement s = none := by
  unfold classifyStatement
  rw [h]
  unfold parse_method
  simp [ho, hv]

/-- **C4, witness** at the plain declaration `foo get_foo() const`. -/
theorem claim_C4_witness : classifyStatement "foo get_foo() const" = none :=
  claim_C4 "foo get_foo() const"
    { virt := none, ret_type := "foo", name := "get_foo", params := "()",
      qualifiers := " const" }
    "" (by decide) rfl (by decide)

/-- **C5.**  A declaration whose trailing qualifiers include `final` never
produces a signature, whether or not it is `virtual` or `override`: the
`final` check fires after the acceptance check, and a declaration failing the
acceptance check is rejected anyway. -/
theorem claim_C5 (g : MatchGroups)
    (hf : "final" ∈ pySplitWs g.qualifiers.data) :
    parse_method g = none := by
  unfold parse_method
  by_cases hacc : "override" ∉ pySplitWs g.qualifiers.data ∧ g.virt = none
  · simp [hacc]
  · have hf2 : "final" ∈ appendOverride (pySplitWs g.qualifiers.data) := by
      unfold appendOverride
      split
      · exact hf
      · exact List.mem_append_left _ hf
    simp only [if_neg hacc]
    simp [hf2]

/-- **C5, witness** at `virtual void foo(int i) final`. -/
theorem claim_C5_witness :
    parse_method
      { virt := some "virtual", ret_type := "void", name := "foo",
        params := "(int i)", qualifiers := " final" } = none :=
  claim_C5 _ (by decide)

/-- **C6.**  The default-clause stripper `re.sub(r"\s*=\s*\w+", "", params)`
only removes `= <word>`: `= 0` is stripped, but `= -1` survives (`-` is not a
word character) and `= Bar()` is mangled to `(` `bar()` (the parameter group
already stopped at `Bar!`'s inner `)`, and only `= Bar` is deleted) — the
repository's own tests `test_negative_default_values` and
`test_parenthesis_in_params` expect `(int i)` and `(bar)` instead. -/
theorem claim_C6_code_eval :
    make_mock none "virtual void foo(int i = 0);" =
      "MOCK_METHOD(void, foo, (int i), (override));" ∧
    make_mock none "virtual void foo(int i = -1);" =
      "MOCK_METHOD(void, foo, (int i = -1), (override));" ∧
    make_mock none "virtual void foo(int i = - 1);" =
      "MOCK_METHOD(void, foo, (int i = - 1), (override));" ∧
    make_mock none "virtual void foo(bar = Bar())" =
      "MOCK_METHOD(void, foo, (bar(), (override));" := by
  decide

/-- **C7.**  A parameter list split across lines is *not* always formatted
identically to its single-line equivalent: the whitespace run after the
opening parenthesis collapses to one space instead of disappearing, so the
multi-line declaration of the repository's own `test_newline_after_paren`
yields `( bool * bar, bool * baz)` (leading space) where the single-line
equivalent yields `(bool * bar, bool * baz)`. -/
theorem claim_C7_code_eval :
    make_mock none "virtual eEnum foo(\nbool * bar = 0,\nbool * baz = 0) = 0" =
      "MOCK_METHOD(eEnum, foo, ( bool * bar, bool * baz), (override));" ∧
    make_mock none "virtual eEnum foo(bool * bar = 0, bool * baz = 0) = 0" =
      "MOCK_METHOD(eEnum, foo, (bool * bar, bool * baz), (override));" ∧
    make_mock none "virtual int simple_method_args(int,\n                               int);" =
      "MOCK_METHOD(int, simple_method_args, (int, int), (override));" := by
  decide

/-- **C9.**  For the parameter `int = 0` the guard `m.lastindex >= 2` is
true because the `(= 0)` group (index 3) matched, so the code overwrites the
synthesized name with the *unmatched* `arg_name` capture — Python `None` —
instead of using `p0`; `", ".join(arg_names)` then raises `TypeError`
(modelled as `none`).  A nameless parameter without the `= 0` trailer does
get the synthesized positional name. -/
theorem claim_C9_code_eval :
    delegationArg 0 "int = 0".data = some ("int".data, none) ∧
    generate_default_delegation
      { ret_type := "int", name := "DoThis", parameters := "(int = 0)",
        qualifiers := "const" } = none ∧
    generate_default_delegation
      { ret_type := "int", name := "DoThis", parameters := "(int)",
        qualifiers := "const" } =
      some "ON_CALL(*this, DoThis(_)).WillByDefault(Invoke([](int p0) { return real->DoThis(p0); }));" := by
  decide

/-- **C10.**  The declarator grammar is applied with `re.match` prefix
semantics: when it matches a proper prefix of a statement, the trailing
characters are ignored and classification depends only on the captured
groups. -/
theorem claim_C10 (s : String) (g : MatchGroups) (rest : String)
    (h : methodDeclMatchFull s = some (g, rest)) (_hne : rest ≠ "") :
    classifyStatement s = parse_method g := by
  unfold classifyStatement
  rw [h]

/-- **C10, witness**: on `virtual void foo(bar = Bar())` the grammar leaves
the unbalanced `)` unconsumed, yet the statement still yields a signature. -/
theorem claim_C10_witness :
    classifyStatement "virtual void foo(bar = Bar())" =
      parse_method
        { virt := some "virtual", ret_type := "void", name := "foo",
          params := "(bar = Bar()", qualifiers := "" } ∧
    methodDeclMatchFull "virtual void foo(bar = Bar())" =
      some ({ virt := some "virtual", ret_type := "void", name := "foo",
              params := "(bar = Bar()", qualifiers := "" }, ")") ∧
    parse_method
      { virt := some "virtual", ret_type := "void", name := "foo",
        params := "(bar = Bar()", qualifiers := "" } =
      some { ret_type := "void", name := "foo", parameters := "(bar()",
             qualifiers := "override" } :=
  ⟨claim_C10 "virtual void foo(bar = Bar())" _ ")" (by decide) (by decide),
   by decide, by decide⟩

/-! ## Soundness of the matcher

Whatever `mfirst` returns corresponds to a real decomposition of the subject:
the matched prefix satisfies the declarative semantics, every capture recorded
along the way is an infix of the subject, and the continuation was invoked on
the rest.  (Fuel exhaustion can only lose matches, never invent them, so the
lemma holds for every fuel value.) -/

theorem mfirst_sound : ∀ (fuel : Nat) (re : RE) (cs : List Char) (caps : Caps)
    (k : Caps → List Char → Option (Caps × List Char)) (res : Caps × List Char),
    mfirst fuel re cs caps k = some res →
    ∃ pre rest extra, cs = pre ++ rest ∧ Sem re pre rest ∧
      (∀ iv ∈ extra, iv.2 <:+: cs) ∧ k (extra ++ caps) rest = some res := by
  intro fuel
  induction fuel with
  | zero => intro re cs caps k res h; exact absurd h (by simp [mfirst])
  | succ n ih =>
    intro re cs caps k res h
    cases re with
    | eps =>
      refine ⟨[], cs, [], rfl, Sem.eps, by simp, ?_⟩
      simpa [mfirst] using h
    | chr p =>
      cases cs with
      | nil => exact absurd h (by simp [mfirst])
      | cons c rest0 =>
        simp only [mfirst] at h
        split at h
        · next hp =>
            exact ⟨[c], rest0, [], rfl, Sem.chr hp, by simp, by simpa using h⟩
        · exact absurd h (by simp)
    | lit w =>
      simp only [mfirst] at h
      split at h
      · next hp =>
          obtain ⟨t, ht⟩ : w <+: cs := List.isPrefixOf_iff_prefix.mp hp
          subst ht
          rw [List.drop_left] at h
          exact ⟨w, t, [], rfl, Sem.lit, by simp, by simpa using h⟩
      · exact absurd h (by simp)
    | seq a b =>
      simp only [mfirst] at h
      obtain ⟨p1, r1, e1, hcs, hsem1, hinf1, hk1⟩ := ih _ _ _ _ _ h
      obtain ⟨p2, r2, e2, hr1, hsem2, hinf2, hk2⟩ := ih _ _ _ _ _ hk1
      have hr1suf : r1 <:+ cs := ⟨p1, hcs.symm⟩
      refine ⟨p1 ++ p2, r2, e2 ++ e1, ?_, ?_, ?_, ?_⟩
      · rw [hcs, hr1, List.append_assoc]
      · subst hr1
        exact Sem.seq hsem1 hsem2
      · intro iv hiv
        rcases List.mem_append.mp hiv with h2 | h1
        · exact (hinf2 iv h2).trans hr1suf.isInfix
        · exact hinf1 iv h1
      · rw [List.append_assoc]
        exact hk2
    | alt a b =>
      simp only [mfirst] at h
      split at h
      · next r heq =>
          obtain rfl : r = res := by simpa using h
          obtain ⟨p1, r1, e1, hcs, hsem1, hinf1, hk1⟩ := ih _ _ _ _ _ heq
          exact ⟨p1, r1, e1, hcs, Sem.altL hsem1, hinf1, hk1⟩
      · next heq =>
          obtain ⟨p1, r1, e1, hcs, hsem1, hinf1, hk1⟩ := ih _ _ _ _ _ h
          exact ⟨p1, r1, e1, hcs, Sem.altR hsem1, hinf1, hk1⟩
    | star a =>
      simp only [mfirst] at h
      split at h
      · next r heq =>
          obtain rfl : r = res := by simpa using h
          obtain ⟨p1, r1, e1, hcs, hsem1, hinf1, hk1⟩ := ih _ _ _ _ _ heq
          split at hk1
          · obtain ⟨p2, r2, e2, hr1, hsem2, hinf2, hk2⟩ := ih _ _ _ _ _ hk1
            have hr1suf : r1 <:+ cs := ⟨p1, hcs.symm⟩
            refine ⟨p1 ++ p2, r2, e2 ++ e1, ?_, ?_, ?_, ?_⟩
            · rw [hcs, hr1, List.append_assoc]
            · subst hr1
              exact Sem.starCons hsem1 hsem2
            · intro iv hiv
              rcases List.mem_append.mp hiv with h2 | h1
              · exact (hinf2 iv h2).trans hr1suf.isInfix
              · exact hinf1 iv h1
            · rw [List.append_assoc]
              exact hk2
          · exact absurd hk1 (by simp)
      · next heq =>
          exact ⟨[], cs, [], rfl, Sem.starNil, by simp, by simpa using h⟩
    | group i a =>
      simp only [mfirst] at h
      obtain ⟨p, r, e, hcs, hsem, hinf, hk⟩ := ih _ _ _ _ _ h
      have htake : cs.take (cs.length - r.length) = p := by
        subst hcs
        rw [List.length_append, Nat.add_sub_cancel, List.take_left]
      rw [htake] at hk
      refine ⟨p, r, (i, p) :: e, hcs, Sem.group hsem, ?_, hk⟩
      intro iv hiv
      rcases List.mem_cons.mp hiv with rfl | hm
      · exact List.IsPrefix.isInfix ⟨r, hcs.symm⟩
      · exact hinf iv hm
    | eos =>
      simp only [mfirst] at h
      split at h
      · next hcond =>
          have hd : cs = [] ∨ cs = ['\n'] := by simpa using hcond
          exact ⟨[], cs, [], rfl, Sem.eos hd, by simp, by simpa using h⟩
      · exact absurd h (by simp)

/-- Everything a repeated character class matches satisfies the class. -/
theorem sem_star_chr {p : Char → Bool} {xs rest : List Char}
    (h : Sem (.star (.chr p)) xs rest) : ∀ c ∈ xs, p c = true := by
  generalize hre : RE.star (.chr p) = re at h
  induction h with
  | starNil => intro c hc; exact absurd hc (List.not_mem_nil c)
  | starCons h1 h2 ih1 ih2 =>
    injection hre with hre2
    subst hre2
    intro c hc
    rcases List.mem_append.mp hc with h1m | h2m
    · cases h1 with
      | chr hp =>
        rw [List.mem_singleton] at h1m
        subst h1m
        exact hp
    · exact ih2 rfl c h2m
  | eps => exact absurd hre (by simp)
  | chr hp => exact absurd hre (by simp)
  | lit => exact absurd hre (by simp)
  | seq h1 h2 ih1 ih2 => exact absurd hre (by simp)
  | altL h1 ih1 => exact absurd hre (by simp)
  | altR h1 ih1 => exact absurd hre (by simp)
  | group h1 ih1 => exact absurd hre (by simp)
  | eos hd => exact absurd hre (by simp)

theorem ws_word_disjoint {x : Char} (hw : isWs x = true) (h : isWordChar x = true) :
    False := by
  have hx : x = ' ' ∨ x = '\t' ∨ x = '\n' ∨ x = '\r' ∨ x = '\x0b' ∨ x = '\x0c' := by
    have := hw
    simp only [isWs, Bool.or_eq_true, beq_iff_eq] at this
    tauto
  rcases hx with rfl | rfl | rfl | rfl | rfl | rfl <;> exact absurd h (by decide)

theorem isRetTypeChar_of_ws {x : Char} (h : isWs x = true) : isRetTypeChar x = true := by
  simp [isRetTypeChar, h]

theorem isRetTypeChar_of_word {x : Char} (h : isWordChar x = true) :
    isRetTypeChar x = true := by
  simp [isRetTypeChar, h]

theorem virtual_chars_word : ∀ x ∈ "virtual".data, isWordChar x = true := by decide

theorem mock_chars_word : ∀ x ∈ "MOCK_METHOD".data, isWordChar x = true := by decide

/-- Key lexical fact: a string of word characters followed by `(` cannot be
split as (return-type-class characters) ++ (nonempty whitespace run) ++
anything — there is no whitespace available before the parenthesis, and the
parenthesis itself is in neither class. -/
theorem no_ws_run_before_paren :
    ∀ (W : List Char), (∀ x ∈ W, isWordChar x = true) →
    ∀ (t P c s : List Char), (∀ x ∈ P, isRetTypeChar x = true) →
      c ≠ [] → (∀ x ∈ c, isWs x = true) →
      W ++ '(' :: t = P ++ (c ++ s) → False := by
  intro W
  induction W with
  | nil =>
    intro hW t P c s hP hc hcw heq
    cases P with
    | nil =>
      cases c with
      | nil => exact hc rfl
      | cons c0 c' =>
        simp only [List.nil_append, List.cons_append] at heq
        injection heq with h1 h2
        have := hcw c0 (List.mem_cons_self c0 c')
        rw [← h1] at this
        exact absurd this (by decide)
    | cons p0 P' =>
      simp only [List.nil_append, List.cons_append] at heq
      injection heq with h1 h2
      have := hP p0 (List.mem_cons_self p0 P')
      rw [← h1] at this
      exact absurd this (by decide)
  | cons w0 W' ih =>
    intro hW t P c s hP hc hcw heq
    cases P with
    | nil =>
      cases c with
      | nil => exact hc rfl
      | cons c0 c' =>
        simp only [List.nil_append, List.cons_append] at heq
        injection heq with h1 h2
        refine ws_word_disjoint ?_ (hW w0 (List.mem_cons_self w0 W'))
        rw [h1]
        exact hcw c0 (List.mem_cons_self c0 c')
    | cons p0 P' =>
      simp only [List.cons_append] at heq
      injection heq with h1 h2
      exact ih (fun x hx => hW x (List.mem_cons_of_mem w0 hx)) t P' c s
        (fun x hx => hP x (List.mem_cons_of_mem p0 hx)) hc hcw h2

/-- Shape of anything `method_decl_re` can match: leading whitespace, an
optional literal `virtual`, whitespace, a nonempty return-type-class run and
then a nonempty whitespace run (followed by the name, parameter list and the
rest, which we do not need to analyse). -/
theorem sem_method_decl_decomp {pre rest : List Char}
    (h : Sem method_decl_re pre rest) :
    ∃ a v b rt c tal,
      pre = a ++ (v ++ (b ++ (rt ++ (c ++ tal)))) ∧
      (∀ x ∈ a, isWs x = true) ∧ (v = [] ∨ v = "virtual".data) ∧
      (∀ x ∈ b, isWs x = true) ∧
      rt ≠ [] ∧ (∀ x ∈ rt, isRetTypeChar x = true) ∧
      c ≠ [] ∧ (∀ x ∈ c, isWs x = true) := by
  unfold method_decl_re REopt REplus at h
  cases h with
  | seq hS1 hR1 =>
    cases hR1 with
    | seq hS2 hR2 =>
      cases hR2 with
      | seq hS3 hR3 =>
        cases hR3 with
        | seq hS4 hR4 =>
          cases hR4 with
          | seq hS5 hR5 =>
            have hv : ∀ (x2 : List Char) (r2 : List Char),
                Sem (.alt (.group 1 (.lit "virtual".data)) .eps) x2 r2 →
                x2 = [] ∨ x2 = "virtual".data := by
              intro x2 r2 hx
              cases hx with
              | altL hg =>
                cases hg with
                | group hl => cases hl; exact Or.inr rfl
              | altR he => cases he; exact Or.inl rfl
            have hrt : ∀ (x4 : List Char) (r4 : List Char),
                Sem (.seq (.chr isRetTypeChar) (.star (.chr isRetTypeChar))) x4 r4 →
                x4 ≠ [] ∧ ∀ x ∈ x4, isRetTypeChar x = true := by
              intro x4 r4 hx
              cases hx with
              | seq hc hst =>
                cases hc with
                | chr hp =>
                  refine ⟨by simp, ?_⟩
                  intro x hx
                  rcases List.mem_append.mp hx with hx1 | hx2
                  · rw [List.mem_singleton] at hx1
                    subst hx1
                    exact hp
                  · exact sem_star_chr hst x hx2
            have hws : ∀ (x5 : List Char) (r5 : List Char),
                Sem (.seq (.chr isWs) (.star (.chr isWs))) x5 r5 →
                x5 ≠ [] ∧ ∀ x ∈ x5, isWs x = true := by
              intro x5 r5 hx
              cases hx with
              | seq hc hst =>
                cases hc with
                | chr hp =>
                  refine ⟨by simp, ?_⟩
                  intro x hx
                  rcases List.mem_append.mp hx with hx1 | hx2
                  · rw [List.mem_singleton] at hx1
                    subst hx1
                    exact hp
                  · exact sem_star_chr hst x hx2
            cases hS4 with
            | group hg4 =>
              refine ⟨_, _, _, _, _, _, rfl, sem_star_chr hS1, hv _ _ hS2,
                sem_star_chr hS3, (hrt _ _ hg4).1, (hrt _ _ hg4).2,
                (hws _ _ hS5).1, (hws _ _ hS5).2⟩

/-- No statement piece of the generator's own output matches the declarator
grammar: after the optional leading newline, the subject starts with the word
run `MOCK_METHOD` followed immediately by `(`, leaving no whitespace for the
mandatory `\s+` between return type and name. -/
theorem no_match_on_mock_piece (w t : List Char) (hw : w = [] ∨ w = ['\n']) :
    reMatch method_decl_re (w ++ ("MOCK_METHOD".data ++ '(' :: t)) = none := by
  cases hres : reMatch method_decl_re (w ++ ("MOCK_METHOD".data ++ '(' :: t)) with
  | none => rfl
  | some res =>
    exfalso
    unfold reMatch at hres
    obtain ⟨pre, rest, extra, hsplit, hsem, hinf, hk⟩ := mfirst_sound _ _ _ _ _ _ hres
    obtain ⟨a, v, b, rt, c, tal, hpre, ha, hvv, hb, hrtne, hrt, hcne, hcw⟩ :=
      sem_method_decl_decomp hsem
    subst hpre
    have hP : ∀ x ∈ a ++ (v ++ (b ++ rt)), isRetTypeChar x = true := by
      intro x hx
      rcases List.mem_append.mp hx with hxa | hx1
      · exact isRetTypeChar_of_ws (ha x hxa)
      · rcases List.mem_append.mp hx1 with hxv | hx2
        · rcases hvv with rfl | rfl
          · exact absurd hxv (List.not_mem_nil x)
          · exact isRetTypeChar_of_word (virtual_chars_word x hxv)
        · rcases List.mem_append.mp hx2 with hxb | hxrt
          · exact isRetTypeChar_of_ws (hb x hxb)
          · exact hrt x hxrt
    have hPne : a ++ (v ++ (b ++ rt)) ≠ [] := by
      intro h0
      rw [List.append_eq_nil, List.append_eq_nil, List.append_eq_nil] at h0
      exact hrtne h0.2.2.2
    have heqn : w ++ ("MOCK_METHOD".data ++ '(' :: t) =
        (a ++ (v ++ (b ++ rt))) ++ (c ++ (tal ++ rest)) := by
      rw [hsplit]
      simp [List.append_assoc]
    rcases hw with rfl | rfl
    · rw [List.nil_append] at heqn
      exact no_ws_run_before_paren "MOCK_METHOD".data mock_chars_word t _ c _
        hP hcne hcw heqn
    · obtain ⟨p0, P', hP'⟩ : ∃ p0 P', a ++ (v ++ (b ++ rt)) = p0 :: P' := by
        cases hPP : a ++ (v ++ (b ++ rt)) with
        | nil => exact absurd hPP hPne
        | cons p0 P' => exact ⟨p0, P', rfl⟩
      rw [hP'] at heqn
      simp only [List.singleton_append, List.cons_append] at heqn
      injection heqn with h1 h2
      have hP'ret : ∀ x ∈ P', isRetTypeChar x = true := by
        intro x hx
        refine hP x ?_
        rw [hP']
        exact List.mem_cons_of_mem p0 hx
      exact no_ws_run_before_paren "MOCK_METHOD".data mock_chars_word t P' c _
        hP'ret hcne hcw h2

theorem lookup_mem : ∀ {l : List (Nat × List Char)} {k : Nat} {v : List Char},
    l.lookup k = some v → (k, v) ∈ l := by
  intro l
  induction l with
  | nil => intro k v h; exact absurd h (by simp [List.lookup])
  | cons a t ih =>
    intro k v h
    obtain ⟨k2, v2⟩ := a
    simp only [List.lookup] at h
    split at h
    · next heq =>
      obtain rfl : v2 = v := by simpa using h
      obtain rfl : k = k2 := by simpa using heq
      exact List.mem_cons_self _ _
    · exact List.mem_cons_of_mem _ (ih h)

/-- Every field of the groups record of a successful match consists of
characters of the subject. -/
theorem match_groups_chars {s : String} {g : MatchGroups} {rest : String}
    (h : methodDeclMatchFull s = some (g, rest)) :
    ∀ x, (x ∈ g.ret_type.data ∨ x ∈ g.name.data ∨ x ∈ g.params.data ∨
      x ∈ g.qualifiers.data) → x ∈ s.data := by
  unfold methodDeclMatchFull at h
  rw [Option.map_eq_some'] at h
  obtain ⟨res, hm, hf⟩ := h
  unfold reMatch at hm
  obtain ⟨pre, rest2, extra, hsplit, hsem, hinf, hk⟩ := mfirst_sound _ _ _ _ _ _ hm
  obtain rfl : (extra ++ [], rest2) = res := by simpa using hk
  have hg : capsToGroups (extra ++ []) = g := congrArg Prod.fst hf
  rw [List.append_nil] at hg
  subst hg
  have hfield : ∀ (i : Nat) (x : Char),
      x ∈ ((extra.lookup i).getD ([] : List Char)) → x ∈ s.data := by
    intro i x hx
    cases hl : extra.lookup i with
    | none => rw [hl] at hx; exact absurd hx (List.not_mem_nil x)
    | some v =>
      rw [hl] at hx
      simp only [Option.getD_some] at hx
      exact (hinf (i, v) (lookup_mem hl)).subset hx
  intro x hx
  simp only [capsToGroups] at hx
  rcases hx with hx | hx | hx | hx
  · exact hfield 2 x hx
  · exact hfield 3 x hx
  · exact hfield 4 x hx
  · exact hfield 5 x hx

theorem mem_sub1go : ∀ (b : Bool) (l : List Char) (x : Char),
    x ∈ sub1go b l → x ∈ l ∨ x = ' ' := by
  intro b l
  induction l generalizing b with
  | nil => intro x hx; simp [sub1go] at hx
  | cons c t ih =>
    intro x hx
    unfold sub1go at hx
    split at hx
    · split at hx
      · rcases ih true x hx with h | h
        · exact Or.inl (List.mem_cons_of_mem c h)
        · exact Or.inr h
      · rcases List.mem_cons.mp hx with rfl | hx2
        · exact Or.inr rfl
        · rcases ih true x hx2 with h | h
          · exact Or.inl (List.mem_cons_of_mem c h)
          · exact Or.inr h
    · rcases List.mem_cons.mp hx with rfl | hx2
      · exact Or.inl (List.mem_cons_self x t)
      · rcases ih false x hx2 with h | h
        · exact Or.inl (List.mem_cons_of_mem c h)
        · exact Or.inr h

theorem tryDefaultClause_suffix {cs r : List Char} (h : tryDefaultClause cs = some r) :
    r <:+ cs := by
  unfold tryDefaultClause at h
  split at h
  · next r2 heq =>
    split at h
    · exact absurd h (by simp)
    · obtain rfl : (r2.dropWhile isWs).dropWhile isWordChar = r := by simpa using h
      have h1 : (r2.dropWhile isWs).dropWhile isWordChar <:+ r2.dropWhile isWs :=
        List.dropWhile_suffix _
      have h2 : r2.dropWhile isWs <:+ r2 := List.dropWhile_suffix _
      have h3 : r2 <:+ ('=' :: r2) := List.suffix_cons '=' r2
      have h4 : cs.dropWhile isWs <:+ cs := List.dropWhile_suffix _
      rw [heq] at h4
      exact ((h1.trans h2).trans h3).trans h4
  · exact absurd h (by simp)

theorem mem_sub2go : ∀ (n : Nat) (l : List Char) (x : Char), x ∈ sub2go n l → x ∈ l := by
  intro n
  induction n with
  | zero => intro l x hx; simpa [sub2go] using hx
  | succ n ih =>
    intro l x hx
    cases l with
    | nil => rw [sub2go] at hx; exact hx
    | cons c t =>
      unfold sub2go at hx
      split at hx
      · next r4 heq =>
        exact (tryDefaultClause_suffix heq).subset (ih r4 x hx)
      · rcases List.mem_cons.mp hx with rfl | hx2
        · exact List.mem_cons_self x t
        · exact List.mem_cons_of_mem c (ih t x hx2)

theorem mem_pySplitWsGo : ∀ (l acc : List Char) (t : List Char),
    t ∈ pySplitWsGo acc l → ∀ x ∈ t, x ∈ acc ∨ x ∈ l := by
  intro l
  induction l with
  | nil =>
    intro acc t ht x hx
    unfold pySplitWsGo at ht
    split at ht
    · exact absurd ht (List.not_mem_nil t)
    · rcases List.mem_singleton.mp ht with rfl
      exact Or.inl (List.mem_reverse.mp hx)
  | cons c r ih =>
    intro acc t ht x hx
    unfold pySplitWsGo at ht
    split at ht
    · split at ht
      · rcases ih [] t ht x hx with h | h
        · exact absurd h (List.not_mem_nil x)
        · exact Or.inr (List.mem_cons_of_mem c h)
      · rcases List.mem_cons.mp ht with rfl | ht2
        · exact Or.inl (List.mem_reverse.mp hx)
        · rcases ih [] t ht2 x hx with h | h
          · exact absurd h (List.not_mem_nil x)
          · exact Or.inr (List.mem_cons_of_mem c h)
    · rcases ih (c :: acc) t ht x hx with h | h
      · rcases List.mem_cons.mp h with rfl | h2
        · exact Or.inr (List.mem_cons_self x r)
        · exact Or.inl h2
      · exact Or.inr (List.mem_cons_of_mem c h)

theorem mem_joinWith : ∀ (sep : List Char) (ps : List (List Char)) (x : Char),
    x ∈ joinWith sep ps → x ∈ sep ∨ ∃ p ∈ ps, x ∈ p := by
  intro sep ps
  induction ps with
  | nil => intro x hx; simp [joinWith] at hx
  | cons a t ih =>
    cases t with
    | nil =>
      intro x hx
      simp only [joinWith] at hx
      exact Or.inr ⟨a, List.mem_cons_self a [], hx⟩
    | cons b u =>
      intro x hx
      simp only [joinWith] at hx
      rcases List.mem_append.mp hx with hx1 | hx2
      · rcases List.mem_append.mp hx1 with hxa | hxs
        · exact Or.inr ⟨a, List.mem_cons_self a (b :: u), hxa⟩
        · exact Or.inl hxs
      · rcases ih x hx2 with h | ⟨p, hp, hxp⟩
        · exact Or.inl h
        · exact Or.inr ⟨p, List.mem_cons_of_mem a hp, hxp⟩

theorem string_data_append (a b : String) : (a ++ b).data = a.data ++ b.data := rfl

theorem intercalate_data (s : String) : ∀ (l : List String),
    (String.intercalate s l).data = joinWith s.data (l.map String.data) := by
  have hgo : ∀ (l : List String) (acc : String),
      (String.intercalate.go acc s l).data =
        joinWith s.data (acc.data :: l.map String.data) := by
    intro l
    induction l with
    | nil => intro acc; simp [String.intercalate.go, joinWith]
    | cons a t ih =>
      intro acc
      rw [String.intercalate.go, ih]
      cases t with
      | nil => simp [joinWith, string_data_append, List.append_assoc]
      | cons b u => simp [joinWith, string_data_append, List.append_assoc]
  intro l
  cases l with
  | nil => rfl
  | cons a t =>
    rw [String.intercalate, hgo]
    simp

theorem splitOnP_piece_chars (p : Char → Bool) : ∀ (l t : List Char),
    t ∈ splitOnP p l → ∀ x ∈ t, p x = false := by
  intro l
  induction l with
  | nil =>
    intro t ht x hx
    simp only [splitOnP] at ht
    rcases List.mem_singleton.mp ht with rfl
    exact absurd hx (List.not_mem_nil x)
  | cons c r ih =>
    intro t ht x hx
    unfold splitOnP at ht
    split at ht
    · rcases List.mem_cons.mp ht with rfl | ht2
      · exact absurd hx (List.not_mem_nil x)
      · exact ih t ht2 x hx
    · next hc =>
      split at ht
      · next heq =>
        rcases List.mem_singleton.mp ht with rfl
        rcases List.mem_singleton.mp hx with rfl
        simpa using hc
      · next t0 ts heq =>
        rcases List.mem_cons.mp ht with rfl | ht2
        · rcases List.mem_cons.mp hx with rfl | hx2
          · simpa using hc
          · exact ih t0 (by rw [heq]; exact List.mem_cons_self t0 ts) x hx2
        · exact ih t (by rw [heq]; exact List.mem_cons_of_mem t0 ht2) x hx

theorem splitOnP_cons_delim {p : Char → Bool} {c : Char} {l : List Char}
    (h : p c = true) : splitOnP p (c :: l) = [] :: splitOnP p l := by
  conv_lhs => unfold splitOnP
  rw [if_pos h]

theorem splitOnP_nofree_append {p : Char → Bool} : ∀ {xs l t : List Char}
    {ts : List (List Char)}, (∀ x ∈ xs, p x = false) →
    splitOnP p l = t :: ts → splitOnP p (xs ++ l) = (xs ++ t) :: ts := by
  intro xs
  induction xs with
  | nil => intro l t ts hfree h; simpa using h
  | cons x xs2 ih =>
    intro l t ts hfree h
    have hx : p x = false := hfree x (List.mem_cons_self x xs2)
    have ih2 := ih (fun y hy => hfree y (List.mem_cons_of_mem x hy)) h
    show splitOnP p (x :: (xs2 ++ l)) = ((x :: xs2) ++ t) :: ts
    conv_lhs => unfold splitOnP
    rw [if_neg (by simp [hx]), ih2]
    simp

/-- The line body of a generated `MOCK_METHOD` line (everything except the
terminating semicolon). -/
def mockBody (m : MockMethod) : List Char :=
  "MOCK_METHOD".data ++ '(' :: mockMid m

theorem generate_mock_method_data (m : MockMethod) :
    (generate_mock_method m).data = mockBody m ++ [';'] := by
  have h1 : ("MOCK_METHOD(" : String).data = "MOCK_METHOD".data ++ ['('] := by decide
  have h2 : ("));" : String).data = [')', ')', ';'] := by decide
  show ("MOCK_METHOD(" ++ m.ret_type ++ ", " ++ m.name ++ ", " ++ m.parameters
      ++ ", (" ++ m.qualifiers ++ "));").data = _
  simp only [string_data_append, h1, h2, mockBody, mockMid]
  simp [List.append_assoc]

/-- Splitting the newline-joined, semicolon-terminated line bodies on the
statement separators recovers exactly: the first body, each further body
prefixed by the newline that separated it, and one final empty piece. -/
theorem split_join_bodies : ∀ (bodies : List (List Char)),
    (∀ b ∈ bodies, ∀ x ∈ b, isStmtDelim x = false) →
    splitOnP isStmtDelim (joinWith ['\n'] (bodies.map (fun b => b ++ [';']))) =
      piecesOf bodies := by
  intro bodies
  induction bodies with
  | nil => intro hfree; simp [joinWith, splitOnP, piecesOf]
  | cons b0 rest ih =>
    intro hfree
    have hb0 : ∀ x ∈ b0, isStmtDelim x = false :=
      hfree b0 (List.mem_cons_self b0 rest)
    cases rest with
    | nil =>
      simp only [List.map_cons, List.map_nil, joinWith, piecesOf]
      have hsemi : splitOnP isStmtDelim ([';'] : List Char) = [[], []] := by decide
      rw [splitOnP_nofree_append hb0 hsemi]
      simp
    | cons b1 rest2 =>
      have hJ := ih (fun b hb => hfree b (List.mem_cons_of_mem b0 hb))
      simp only [List.map_cons, joinWith] at hJ ⊢
      have hsh : (b0 ++ [';']) ++ ['\n'] ++
          joinWith ['\n'] ((b1 ++ [';']) :: rest2.map (fun b => b ++ [';'])) =
          b0 ++ (';' :: '\n' ::
            joinWith ['\n'] ((b1 ++ [';']) :: rest2.map (fun b => b ++ [';']))) := by
        simp [List.append_assoc]
      rw [hsh]
      have hstep1 : splitOnP isStmtDelim ('\n' ::
          joinWith ['\n'] ((b1 ++ [';']) :: rest2.map (fun b => b ++ [';']))) =
          ('\n' :: b1) :: (rest2.map (fun b => '\n' :: b) ++ [[]]) := by
        have : piecesOf (b1 :: rest2) = b1 :: (rest2.map (fun b => '\n' :: b) ++ [[]]) := rfl
        rw [this] at hJ
        conv_lhs => unfold splitOnP
        rw [if_neg (by decide), hJ]
      have hstep2 : splitOnP isStmtDelim (';' :: '\n' ::
          joinWith ['\n'] ((b1 ++ [';']) :: rest2.map (fun b => b ++ [';']))) =
          [] :: ('\n' :: b1) :: (rest2.map (fun b => '\n' :: b) ++ [[]]) := by
        rw [splitOnP_cons_delim (by decide), hstep1]
      rw [splitOnP_nofree_append hb0 hstep2]
      simp [piecesOf]

/-- Every character between `MOCK_METHOD(` and the final `;` of a generated
line for an emitted signature avoids the statement separators `;`, `{`,
`}`: the raw captures are substrings of a separator-free statement piece, the
parameter rewrites only shrink or introduce spaces, and the qualifier join
only adds `", "` and `override`. -/
theorem emitted_no_delims {target : Option String} {content : String}
    {m : MockMethod} (hm : m ∈ find_methods_to_mock target content) :
    ∀ x ∈ mockMid m, isStmtDelim x = false := by
  unfold find_methods_to_mock at hm
  rw [List.mem_filterMap] at hm
  obtain ⟨st, hst, hcl⟩ := hm
  have hstfree : ∀ x ∈ st, isStmtDelim x = false :=
    splitOnP_piece_chars isStmtDelim _ st hst
  unfold classifyStatement at hcl
  split at hcl
  · exact absurd hcl (by simp)
  · next g rest hmatch =>
    have hgchars := match_groups_chars hmatch
    have hgfree : ∀ x,
        (x ∈ g.ret_type.data ∨ x ∈ g.name.data ∨ x ∈ g.params.data ∨
          x ∈ g.qualifiers.data) → isStmtDelim x = false := by
      intro x hx
      exact hstfree x (hgchars x hx)
    unfold parse_method at hcl
    split at hcl
    · exact absurd hcl (by simp)
    · split at hcl
      · exact absurd hcl (by simp)
      · obtain rfl : _ = m := by
          exact Option.some.inj hcl
        intro x hx
        unfold mockMid at hx
        have hlit1 : ∀ y ∈ (", " : String).data, isStmtDelim y = false := by decide
        have hlit2 : ∀ y ∈ (", (" : String).data, isStmtDelim y = false := by decide
        have hlit3 : ∀ y ∈ [')', ')'], isStmtDelim y = false := by decide
        have hov : ∀ y ∈ ("override" : String).data, isStmtDelim y = false := by decide
        rcases List.mem_append.mp hx with hx | hpp
        rotate_left
        · exact hlit3 x hpp
        rcases List.mem_append.mp hx with hx | hquals
        rotate_left
        · -- qualifiers field: ", "-join of split tokens plus "override"
          rw [intercalate_data] at hquals
          rcases mem_joinWith _ _ x hquals with h | ⟨pd, hpd, hxp⟩
          · exact hlit1 x h
          · rw [List.mem_map] at hpd
            obtain ⟨tok, htok, rfl⟩ := hpd
            have htok2 : tok ∈ pySplitWs g.qualifiers.data ∨ tok = "override" := by
              unfold appendOverride at htok
              split at htok
              · exact Or.inl htok
              · rcases List.mem_append.mp htok with h1 | h2
                · exact Or.inl h1
                · exact Or.inr (List.mem_singleton.mp h2)
            rcases htok2 with h1 | rfl
            · unfold pySplitWs at h1
              rw [List.mem_map] at h1
              obtain ⟨td, htd, rfl⟩ := h1
              rcases mem_pySplitWsGo _ _ td htd x hxp with h | h
              · exact absurd h (List.not_mem_nil x)
              · exact hgfree x (Or.inr (Or.inr (Or.inr h)))
            · exact hov x hxp
        rcases List.mem_append.mp hx with hx | hl3
        rotate_left
        · exact hlit2 x hl3
        rcases List.mem_append.mp hx with hx | hparams
        rotate_left
        · -- parameters field: whitespace collapse then default-clause removal
          have hp2 : x ∈ sub2go (collapseWs g.params.data).length (collapseWs g.params.data) :=
            hparams
          have hx2 : x ∈ sub1go false g.params.data := mem_sub2go _ _ x hp2
          rcases mem_sub1go false _ x hx2 with h | rfl
          · exact hgfree x (Or.inr (Or.inr (Or.inl h)))
          · decide
        rcases List.mem_append.mp hx with hx | hl2
        rotate_left
        · exact hlit1 x hl2
        rcases List.mem_append.mp hx with hx | hname
        rotate_left
        · exact hgfree x (Or.inr (Or.inl hname))
        rcases List.mem_append.mp hx with hret | hl1
        · exact hgfree x (Or.inl hret)
        · exact hlit1 x hl1

/-- **C8.**  Feeding the generator's own output back through the classifier
produces no signatures: every statement piece of the output either is empty
or starts (after an optional newline) with `MOCK_METHOD(`, which the
declarator grammar cannot match. -/
theorem claim_C8 (content : String) :
    find_methods_to_mock none (make_mock none content) = [] := by
  have hout : (make_mock none content).data =
      joinWith ['\n']
        (((find_methods_to_mock none content).map mockBody).map (fun b => b ++ [';'])) := by
    show (String.intercalate "\n" _).data = _
    rw [intercalate_data]
    rw [List.map_map, List.map_map]
    refine congrArg (joinWith _) (List.map_congr_left ?_)
    intro m hm
    exact generate_mock_method_data m
  have hbodyfree : ∀ b ∈ (find_methods_to_mock none content).map mockBody,
      ∀ x ∈ b, isStmtDelim x = false := by
    intro b hb x hx
    rw [List.mem_map] at hb
    obtain ⟨m, hm, rfl⟩ := hb
    unfold mockBody at hx
    have hM : ∀ y ∈ ("MOCK_METHOD" : String).data, isStmtDelim y = false := by decide
    rcases List.mem_append.mp hx with h | h
    · exact hM x h
    · rcases List.mem_cons.mp h with rfl | h2
      · decide
      · exact emitted_no_delims hm x h2
  have hempty : classifyStatement (String.mk []) = none := by decide
  show (splitOnP isStmtDelim (selectScope none (make_mock none content)).data).filterMap
      (fun st => classifyStatement (String.mk st)) = []
  have hsel : selectScope none (make_mock none content) = make_mock none content := rfl
  rw [hsel, hout, split_join_bodies _ hbodyfree, List.filterMap_eq_nil_iff]
  intro st hst
  cases hb : (find_methods_to_mock none content).map mockBody with
  | nil =>
    rw [hb] at hst
    simp only [piecesOf, List.mem_singleton] at hst
    subst hst
    exact hempty
  | cons b0 bs =>
    rw [hb] at hst
    simp only [piecesOf, List.mem_cons, List.mem_append, List.mem_singleton] at hst
    have hclass : ∀ (l : List Char), reMatch method_decl_re l = none →
        classifyStatement (String.mk l) = none := by
      intro l hl
      unfold classifyStatement methodDeclMatchFull
      rw [show (String.mk l).data = l from rfl, hl]
      rfl
    have hbody : ∀ b, b ∈ (find_methods_to_mock none content).map mockBody →
        classifyStatement (String.mk b) = none ∧
        classifyStatement (String.mk ('\n' :: b)) = none := by
      intro b hbm
      rw [List.mem_map] at hbm
      obtain ⟨m, hm, rfl⟩ := hbm
      constructor
      · refine hclass (mockBody m) ?_
        have hnm := no_match_on_mock_piece [] (mockMid m) (Or.inl rfl)
        rw [List.nil_append] at hnm
        exact hnm
      · refine hclass ('\n' :: mockBody m) ?_
        have hnm := no_match_on_mock_piece ['\n'] (mockMid m) (Or.inr rfl)
        rw [show (['\n'] ++ ("MOCK_METHOD".data ++ '(' :: mockMid m)) =
            '\n' :: ("MOCK_METHOD".data ++ '(' :: mockMid m) from rfl] at hnm
        exact hnm
    rcases hst with heq1 | hst2 | heq2 | habs
    · rw [heq1]
      exact (hbody b0 (by rw [hb]; exact List.mem_cons_self b0 bs)).1
    · rw [List.mem_map] at hst2
      obtain ⟨b, hbmem, rfl⟩ := hst2
      exact (hbody b (by rw [hb]; exact List.mem_cons_of_mem b0 hbmem)).2
    · rw [heq2]
      exact hempty
    · exact absurd habs (List.not_mem_nil st)

end Makemock
